import Mathlib

/-!
Shallow embedding of the transaction planner and executor of
`pahkat-client-core` (`src/transaction.rs`), together with proofs of the
specification's claims about it.

Conventions of the embedding:
* `PackageKey` is modelled as `String` (opaque, stringifiable, hashable id).
* The `PackageStore` trait object is modelled as a record of the functions the
  planner and executor consume.  `crate::repo::find_package_dependencies`
  (whose body is outside the provided sources) is modelled as one more
  capability of the store, per §4.2 of the specification.
* Rust `Result` becomes `Except`; a Rust `panic!` becomes `Option.none`.
* The async event stream of `process` is modelled, for an uncancelled run, as
  the finite list of events it yields in order.
-/

namespace Pahkat

/-- `PackageKey`: opaque stable identity of a package (stringifiable, usable
as a hash key).  Modelled as `String`; `to_string` is the identity. -/
abbrev PackageKey := String

/-- Modelled from the spec: `InstallTarget` (`crate::package_store`) is "a
small closed set of installation scopes (e.g., system-wide vs. per-user)";
its declaration is not among the provided sources. -/
inductive InstallTarget
  | system
  | user
deriving DecidableEq, Repr

/-- Modelled from the spec: a package record is an opaque value produced by
the store; the planner treats it only as something that (with the store)
yields a dependency list. -/
structure Package where
  deriving DecidableEq, Inhabited, Repr

/-- `PackageStatus` from `transaction.rs`. -/
inductive PackageStatus
  | NotInstalled
  | UpToDate
  | RequiresUpdate
deriving DecidableEq, Repr

/-- `crate::repo::PayloadError`: its declaration is outside the provided
sources; the variants are those matched in `status_to_i8` and listed in
§4.3 of the spec. -/
inductive PayloadError
  | NoPackage
  | NoConcretePackage
  | NoPayloadFound
  | CriteriaUnmet (reason : String)
deriving DecidableEq, Repr

/-- `PackageStatusError` from `transaction.rs`. -/
inductive PackageStatusError
  | Payload (e : PayloadError)
  | WrongPayloadType
  | ParsingVersion
deriving DecidableEq, Repr

/-- `status_to_i8` from `transaction.rs` (the i8 codes fit in `Int`). -/
def status_to_i8 (result : Except PackageStatusError PackageStatus) : Int :=
  match result with
  | .ok status =>
    match status with
    | PackageStatus.NotInstalled => 0
    | PackageStatus.UpToDate => 1
    | PackageStatus.RequiresUpdate => 2
  | .error error =>
    match error with
    | PackageStatusError.Payload e =>
      match e with
      | PayloadError.NoPackage | PayloadError.NoConcretePackage => -1
      | PayloadError.NoPayloadFound => -2
      | PayloadError.CriteriaUnmet _ => -5
    | PackageStatusError.WrongPayloadType => -3
    | PackageStatusError.ParsingVersion => -4

/-- `PackageActionType` from `transaction.rs`. -/
inductive PackageActionType
  | Install
  | Uninstall
deriving DecidableEq, Repr

/-- `PackageActionType::from_u8`: the Rust function panics on any byte other
than 0 or 1; the panic is modelled as `none`. -/
def PackageActionType.from_u8 (x : Nat) : Option PackageActionType :=
  match x with
  | 0 => some PackageActionType.Install
  | 1 => some PackageActionType.Uninstall
  | _ => none

/-- `PackageActionType::to_u8`. -/
def PackageActionType.to_u8 : PackageActionType → Nat
  | PackageActionType.Install => 0
  | PackageActionType.Uninstall => 1

/-- `PackageAction` from `transaction.rs`. -/
structure PackageAction where
  id : PackageKey
  action : PackageActionType
  target : InstallTarget
deriving DecidableEq, Repr

/-- `PackageAction::install`. -/
def PackageAction.install (id : PackageKey) (target : InstallTarget) : PackageAction :=
  ⟨id, PackageActionType.Install, target⟩

/-- `PackageAction::uninstall`. -/
def PackageAction.uninstall (id : PackageKey) (target : InstallTarget) : PackageAction :=
  ⟨id, PackageActionType.Uninstall, target⟩

/-- `PackageAction::is_install`. -/
def PackageAction.is_install (a : PackageAction) : Bool :=
  a.action == PackageActionType.Install

/-- `PackageAction::is_uninstall`. -/
def PackageAction.is_uninstall (a : PackageAction) : Bool :=
  a.action == PackageActionType.Uninstall

/-- `PackageDependencyError` from `transaction.rs`. -/
inductive PackageDependencyError
  | PackageNotFound (name : String)
  | VersionNotFound (name : String)
  | PackageStatusError (name : String) (e : PackageStatusError)
deriving DecidableEq, Repr

/-- `PackageTransactionError` from `transaction.rs`. -/
inductive PackageTransactionError
  | NoPackage (key : String)
  | Deps (e : PackageDependencyError)
  | ActionContradiction (description : String)
  | InvalidStatus (e : PackageStatusError)
deriving DecidableEq, Repr

/-- Modelled from the spec: `InstallError` (`transaction::install`) is an
opaque store-reported install failure. -/
structure InstallError where
  code : Nat
deriving DecidableEq, Repr

/-- Modelled from the spec: `UninstallError` (`transaction::uninstall`) is an
opaque store-reported uninstall failure. -/
structure UninstallError where
  code : Nat
deriving DecidableEq, Repr

/-- `TransactionError` from `transaction.rs`. -/
inductive TransactionError
  | ValidationFailed
  | UserCancelled
  | Uninstall (e : UninstallError)
  | Install (e : InstallError)
deriving DecidableEq, Repr

/-- `TransactionEvent` from `transaction.rs`. -/
inductive TransactionEvent
  | Installing (key : PackageKey)
  | Uninstalling (key : PackageKey)
  | Progress (key : PackageKey) (msg : String)
  | Error (key : PackageKey) (e : TransactionError)
  | Complete
deriving DecidableEq, Repr

/-- The `PackageStore` trait (§4.1) together with the dependency resolver
`crate::repo::find_package_dependencies` (§4.2), modelled as a record of the
capabilities the planner and executor consume.  Both declarations are outside
the provided sources; the capability signatures follow the spec and the call
sites in `transaction.rs`. -/
structure PackageStore where
  find_package_by_key : PackageKey → Option Package
  status : PackageKey → InstallTarget → Except PackageStatusError PackageStatus
  install : PackageKey → InstallTarget → Except InstallError Unit
  uninstall : PackageKey → InstallTarget → Except UninstallError Unit
  find_package_dependencies :
    PackageKey → Package → InstallTarget →
      Except PackageDependencyError (List (PackageKey × Package))

/-- `process_install_action` from `transaction.rs`: append an `Install`
action (with the caller action's target) for every resolved dependency whose
key is not already present in the working list. -/
def process_install_action (store : PackageStore) (package : Package)
    (action : PackageAction) (new_actions : List PackageAction) :
    Except PackageTransactionError (List PackageAction) :=
  match store.find_package_dependencies action.id package action.target with
  | .error e => .error (PackageTransactionError.Deps e)
  | .ok dependencies =>
    .ok (dependencies.foldl
      (fun acc dependency =>
        if acc.any (fun x => x.id == dependency.fst) then acc
        else acc ++ [PackageAction.install dependency.fst action.target])
      new_actions)

/-- One iteration of the Step 1 expansion loop in `PackageTransaction::new`
(`transaction.rs` lines 259–280): look up the package, expand dependencies of
an `Install` action, then deduplicate or reject the caller action itself. -/
def collate_action (store : PackageStore) (new_actions : List PackageAction)
    (action : PackageAction) : Except PackageTransactionError (List PackageAction) := do
  let package ←
    match store.find_package_by_key action.id with
    | some p => Except.ok p
    | none => Except.error (PackageTransactionError.NoPackage (toString action.id))
  let new_actions ←
    if action.is_install then
      process_install_action store package action new_actions
    else
      Except.ok new_actions
  match new_actions.find? (fun x => x.id == action.id) with
  | some found_action =>
    if found_action.action != action.action then
      Except.error (PackageTransactionError.ActionContradiction (toString action.id))
    else
      Except.ok new_actions
  | none => Except.ok (new_actions ++ [action])

/-- Step 1 of `PackageTransaction::new`: the expansion loop over the caller
actions, starting from the empty working list. -/
def collate (store : PackageStore) (actions : List PackageAction) :
    Except PackageTransactionError (List PackageAction) :=
  actions.foldlM (collate_action store) []

/-- Step 2 of `PackageTransaction::new` (`transaction.rs` lines 282–301): the
global contradiction sweep.  The Rust code collects the install-keys and
uninstall-keys into `HashSet`s and debug-formats their intersection into the
error string; since `HashSet` iteration order is unspecified, the sets are
modelled as the corresponding key lists and the error carries their rendered
intersection. -/
def contradiction_sweep (new_actions : List PackageAction) :
    Except PackageTransactionError (List PackageAction) :=
  let installs := (new_actions.filter (fun a => a.is_install)).map (fun a => a.id)
  let uninstalls := (new_actions.filter (fun a => !a.is_install)).map (fun a => a.id)
  let contradictions := installs.filter (fun k => uninstalls.contains k)
  if contradictions.length > 0 then
    Except.error (PackageTransactionError.ActionContradiction (toString contradictions))
  else
    Except.ok new_actions

/-- The necessity predicate of Step 3 (`transaction.rs` lines 311–315),
factored out of the fold body: `Install` is necessary unless the status is
`UpToDate`; `Uninstall` is necessary when the status is `UpToDate` or
`RequiresUpdate`. -/
def is_necessary_for (status : PackageStatus) (action : PackageAction) : Bool :=
  if action.is_install then
    status != PackageStatus.UpToDate
  else
    status == PackageStatus.UpToDate || status == PackageStatus.RequiresUpdate

/-- Step 3 of `PackageTransaction::new` (`transaction.rs` lines 303–322): the
no-op filtering `try_fold`.  A failing status query aborts with
`InvalidStatus`. -/
def filter_necessary (store : PackageStore) (new_actions : List PackageAction) :
    Except PackageTransactionError (List PackageAction) :=
  new_actions.foldlM
    (fun out action => do
      let status ←
        match store.status action.id action.target with
        | .ok s => Except.ok s
        | .error err => Except.error (PackageTransactionError.InvalidStatus err)
      let is_valid := is_necessary_for status action
      Except.ok (if is_valid then out ++ [action] else out))
    []

/-- `PackageTransaction` from `transaction.rs`: the shared store and the
frozen action vector. -/
structure PackageTransaction where
  store : PackageStore
  actions : List PackageAction

/-- `PackageTransaction::new` from `transaction.rs`: expansion, contradiction
sweep, no-op filtering, then freeze. -/
def PackageTransaction.new (store : PackageStore) (actions : List PackageAction) :
    Except PackageTransactionError PackageTransaction := do
  let new_actions ← collate store actions
  let new_actions ← contradiction_sweep new_actions
  let new_actions ← filter_necessary store new_actions
  Except.ok (PackageTransaction.mk store new_actions)

/-- `PackageTransaction::actions`: hands out the frozen action vector (the
Rust method clones the `Arc`, sharing the same unchanged sequence). -/
def PackageTransaction.actions_ref (t : PackageTransaction) : List PackageAction :=
  t.actions

/-- `PackageTransaction::validate`. -/
def PackageTransaction.validate (_t : PackageTransaction) : Bool :=
  true

/-- The body of the `async_stream::stream!` block in
`PackageTransaction::process` (`transaction.rs` lines 399–434), modelled for
an uncancelled run as the finite list of events yielded in order: for each
action, its start event, then either continuation on store success or a final
error event; `Complete` after the last action. -/
def process_actions (store : PackageStore) : List PackageAction → List TransactionEvent
  | [] => [TransactionEvent.Complete]
  | action :: rest =>
    match action.action with
    | PackageActionType.Install =>
      TransactionEvent.Installing action.id ::
        (match store.install action.id action.target with
        | .ok _ => process_actions store rest
        | .error e =>
          [TransactionEvent.Error action.id (TransactionError.Install e)])
    | PackageActionType.Uninstall =>
      TransactionEvent.Uninstalling action.id ::
        (match store.uninstall action.id action.target with
        | .ok _ => process_actions store rest
        | .error e =>
          [TransactionEvent.Error action.id (TransactionError.Uninstall e)])

/-- `PackageTransaction::process`, restricted to the uncancelled event
stream (the cancellation valve is outside a pure model; claim C5 quantifies
over the uncancelled stream). -/
def PackageTransaction.process (t : PackageTransaction) : List TransactionEvent :=
  process_actions t.store t.actions

/-- The start event of an action: `Installing(id)` or `Uninstalling(id)`. -/
def start_event (action : PackageAction) : TransactionEvent :=
  match action.action with
  | PackageActionType.Install => TransactionEvent.Installing action.id
  | PackageActionType.Uninstall => TransactionEvent.Uninstalling action.id

/-- The outcome of running one action against the store: `none` on success,
`some` of the error event the executor yields on failure. -/
def action_result (store : PackageStore) (action : PackageAction) :
    Option TransactionEvent :=
  match action.action with
  | PackageActionType.Install =>
    match store.install action.id action.target with
    | .ok _ => none
    | .error e => some (TransactionEvent.Error action.id (TransactionError.Install e))
  | PackageActionType.Uninstall =>
    match store.uninstall action.id action.target with
    | .ok _ => none
    | .error e => some (TransactionEvent.Error action.id (TransactionError.Uninstall e))

/-- Whether an event is a `Progress` event. -/
def TransactionEvent.is_progress : TransactionEvent → Bool
  | TransactionEvent.Progress _ _ => true
  | _ => false

/-- Survival predicate of Step 3 as a function of the store: an action
survives the no-op filter iff its status query succeeds and the necessity
predicate holds. -/
def survives (store : PackageStore) (action : PackageAction) : Bool :=
  match store.status action.id action.target with
  | .ok status => is_necessary_for status action
  | .error _ => false

/-! ### Status-code table (§4.3) -/

/-- One representative input per row of the §4.3 table (the `-1` row covers
both `NoPackage` and `NoConcretePackage`). -/
def status_code_rows : List (Except PackageStatusError PackageStatus) :=
  [Except.ok PackageStatus.NotInstalled,
   Except.ok PackageStatus.UpToDate,
   Except.ok PackageStatus.RequiresUpdate,
   Except.error (PackageStatusError.Payload PayloadError.NoPackage),
   Except.error (PackageStatusError.Payload PayloadError.NoPayloadFound),
   Except.error PackageStatusError.WrongPayloadType,
   Except.error PackageStatusError.ParsingVersion,
   Except.error (PackageStatusError.Payload (PayloadError.CriteriaUnmet ""))]

/-- C6: `status_to_i8` implements exactly the §4.3 table — `Ok(NotInstalled)`
↦ 0, `Ok(UpToDate)` ↦ 1, `Ok(RequiresUpdate)` ↦ 2, `Payload(NoPackage)` and
`Payload(NoConcretePackage)` ↦ -1, `Payload(NoPayloadFound)` ↦ -2,
`WrongPayloadType` ↦ -3, `ParsingVersion` ↦ -4, `Payload(CriteriaUnmet(_))`
↦ -5 — and distinct table rows map to distinct integers. -/
theorem status_to_i8_matches_table :
    status_to_i8 (Except.ok PackageStatus.NotInstalled) = 0 ∧
    status_to_i8 (Except.ok PackageStatus.UpToDate) = 1 ∧
    status_to_i8 (Except.ok PackageStatus.RequiresUpdate) = 2 ∧
    status_to_i8 (Except.error (PackageStatusError.Payload PayloadError.NoPackage)) = -1 ∧
    status_to_i8 (Except.error (PackageStatusError.Payload PayloadError.NoConcretePackage)) = -1 ∧
    status_to_i8 (Except.error (PackageStatusError.Payload PayloadError.NoPayloadFound)) = -2 ∧
    status_to_i8 (Except.error PackageStatusError.WrongPayloadType) = -3 ∧
    status_to_i8 (Except.error PackageStatusError.ParsingVersion) = -4 ∧
    (∀ s : String,
      status_to_i8 (Except.error (PackageStatusError.Payload (PayloadError.CriteriaUnmet s))) = -5) ∧
    status_code_rows.Pairwise (fun x y => status_to_i8 x ≠ status_to_i8 y) :=
  ⟨rfl, rfl, rfl, rfl, rfl, rfl, rfl, rfl, fun _ => rfl, by decide⟩

/-! ### Action-type byte encoding (§6, P7) -/

/-- C7: `from_u8 ∘ to_u8` is the identity on both variants, `to_u8` sends
`Install` to 0 and `Uninstall` to 1, and `from_u8` aborts (modelled as
`none`) on every byte other than 0 and 1 — i.e. on every `n + 2`. -/
theorem from_u8_to_u8_round_trip :
    (∀ x : PackageActionType, PackageActionType.from_u8 x.to_u8 = some x) ∧
    PackageActionType.to_u8 PackageActionType.Install = 0 ∧
    PackageActionType.to_u8 PackageActionType.Uninstall = 1 ∧
    (∀ n : Nat, PackageActionType.from_u8 (n + 2) = none) :=
  ⟨fun x => by cases x <;> rfl, rfl, rfl, fun _ => rfl⟩

/-! ### Frozen plan immutability (C10) -/

/-- C10: on the pure embedding the frozen plan is never mutated: `validate`
returns `true` for every built transaction, `actions` always hands out the
same frozen sequence, and `process` only reads that sequence (it is a pure
function of the shared store and the frozen action vector). -/
theorem frozen_plan_immutable (t : PackageTransaction) :
    t.validate = true ∧
    t.actions_ref = t.actions ∧
    t.process = process_actions t.store t.actions_ref :=
  ⟨rfl, rfl, rfl⟩

/-! ### Executor lemmas (C5) -/

lemma start_event_ne_complete (a : PackageAction) :
    start_event a ≠ TransactionEvent.Complete := by
  cases ha : a.action <;> simp [start_event, ha]

lemma complete_not_mem_start_events (l : List PackageAction) :
    TransactionEvent.Complete ∉ l.map start_event := by
  intro hmem
  rcases List.mem_map.mp hmem with ⟨a, _, ha⟩
  exact start_event_ne_complete a ha

lemma action_result_some_shape (store : PackageStore) (a : PackageAction)
    (ev : TransactionEvent) (h : action_result store a = some ev) :
    ∃ k e, ev = TransactionEvent.Error k e := by
  cases ha : a.action with
  | Install =>
    cases hi : store.install a.id a.target with
    | ok u => simp [action_result, ha, hi] at h
    | error e =>
      simp [action_result, ha, hi] at h
      exact ⟨a.id, TransactionError.Install e, h.symm⟩
  | Uninstall =>
    cases hi : store.uninstall a.id a.target with
    | ok u => simp [action_result, ha, hi] at h
    | error e =>
      simp [action_result, ha, hi] at h
      exact ⟨a.id, TransactionError.Uninstall e, h.symm⟩

lemma process_actions_all_ok (store : PackageStore) (plan : List PackageAction)
    (h : ∀ a ∈ plan, action_result store a = none) :
    process_actions store plan = plan.map start_event ++ [TransactionEvent.Complete] := by
  induction plan with
  | nil => rfl
  | cons a rest ih =>
    have ha := h a (List.mem_cons_self a rest)
    have hrest := ih (fun x hx => h x (List.mem_cons_of_mem a hx))
    cases hact : a.action with
    | Install =>
      cases hi : store.install a.id a.target with
      | ok u => simp [process_actions, start_event, hact, hi, hrest]
      | error e => simp [action_result, hact, hi] at ha
    | Uninstall =>
      cases hi : store.uninstall a.id a.target with
      | ok u => simp [process_actions, start_event, hact, hi, hrest]
      | error e => simp [action_result, hact, hi] at ha

lemma process_actions_progress_free (store : PackageStore) (plan : List PackageAction) :
    ∀ e ∈ process_actions store plan, e.is_progress = false := by
  induction plan with
  | nil =>
    intro e he
    simp [process_actions] at he
    simp [he, TransactionEvent.is_progress]
  | cons a rest ih =>
    intro e he
    cases hact : a.action with
    | Install =>
      cases hi : store.install a.id a.target with
      | ok u =>
        simp [process_actions, hact, hi] at he
        rcases he with he | he
        · simp [he, TransactionEvent.is_progress]
        · exact ih e he
      | error e' =>
        simp [process_actions, hact, hi] at he
        rcases he with he | he <;> simp [he, TransactionEvent.is_progress]
    | Uninstall =>
      cases hi : store.uninstall a.id a.target with
      | ok u =>
        simp [process_actions, hact, hi] at he
        rcases he with he | he
        · simp [he, TransactionEvent.is_progress]
        · exact ih e he
      | error e' =>
        simp [process_actions, hact, hi] at he
        rcases he with he | he <;> simp [he, TransactionEvent.is_progress]

lemma process_actions_first_error (store : PackageStore) :
    ∀ (plan : List PackageAction) (i : Nat) (h : i < plan.length),
      (∀ j (hj : j < i), action_result store (plan.get ⟨j, Nat.lt_trans hj h⟩) = none) →
      ∀ ev, action_result store (plan.get ⟨i, h⟩) = some ev →
        process_actions store plan = (plan.take (i + 1)).map start_event ++ [ev] := by
  intro plan
  induction plan with
  | nil =>
    intro i h
    exact absurd h (by simp)
  | cons a rest ih =>
    intro i h hpre ev hev
    cases i with
    | zero =>
      have hev' : action_result store a = some ev := by simpa using hev
      rcases action_result_some_shape store a ev hev' with ⟨k, e, rfl⟩
      cases hact : a.action with
      | Install =>
        cases hi : store.install a.id a.target with
        | ok u => simp [action_result, hact, hi] at hev'
        | error e' =>
          simp [action_result, hact, hi] at hev'
          obtain ⟨h1, h2⟩ := hev'
          subst h1
          subst h2
          simp [process_actions, hact, hi, start_event]
      | Uninstall =>
        cases hi : store.uninstall a.id a.target with
        | ok u => simp [action_result, hact, hi] at hev'
        | error e' =>
          simp [action_result, hact, hi] at hev'
          obtain ⟨h1, h2⟩ := hev'
          subst h1
          subst h2
          simp [process_actions, hact, hi, start_event]
    | succ n =>
      have ha : action_result store a = none := by
        have h0 := hpre 0 (Nat.succ_pos n)
        simpa using h0
      have hn : n < rest.length := by simpa using h
      have hrest := ih n hn
        (fun j hj => by
          have hj' := hpre (j + 1) (Nat.succ_lt_succ hj)
          simpa using hj')
        ev (by simpa using hev)
      cases hact : a.action with
      | Install =>
        cases hi : store.install a.id a.target with
        | ok u => simp [process_actions, hact, hi, hrest, start_event]
        | error e' => simp [action_result, hact, hi] at ha
      | Uninstall =>
        cases hi : store.uninstall a.id a.target with
        | ok u => simp [process_actions, hact, hi, hrest, start_event]
        | error e' => simp [action_result, hact, hi] at ha

/-- C5: protocol of the uncancelled event stream of
`PackageTransaction::process`: the empty plan yields exactly `[Complete]`;
`Progress` is never emitted; when every action succeeds the stream is the
start events of the plan in order followed by exactly one final `Complete`;
at the first failing action the stream is the start events up to and
including that action followed by a final matching `Error` event, and no
`Complete` is emitted. -/
theorem uncancelled_stream_protocol (store : PackageStore) (plan : List PackageAction) :
    (plan = [] → process_actions store plan = [TransactionEvent.Complete]) ∧
    (∀ e ∈ process_actions store plan, e.is_progress = false) ∧
    ((∀ a ∈ plan, action_result store a = none) →
      process_actions store plan = plan.map start_event ++ [TransactionEvent.Complete] ∧
      (process_actions store plan).getLast? = some TransactionEvent.Complete ∧
      (process_actions store plan).count TransactionEvent.Complete = 1) ∧
    (∀ (i : Nat) (h : i < plan.length),
      (∀ j (hj : j < i), action_result store (plan.get ⟨j, Nat.lt_trans hj h⟩) = none) →
      ∀ ev, action_result store (plan.get ⟨i, h⟩) = some ev →
        process_actions store plan = (plan.take (i + 1)).map start_event ++ [ev] ∧
        (process_actions store plan).getLast? = some ev ∧
        TransactionEvent.Complete ∉ process_actions store plan) := by
  refine ⟨?_, process_actions_progress_free store plan, ?_, ?_⟩
  · intro h
    subst h
    rfl
  · intro hok
    have heq := process_actions_all_ok store plan hok
    refine ⟨heq, ?_, ?_⟩
    · rw [heq]
      simp
    · rw [heq]
      rw [List.count_append]
      rw [List.count_eq_zero_of_not_mem (complete_not_mem_start_events plan)]
      simp
  · intro i h hpre ev hev
    have heq := process_actions_first_error store plan i h hpre ev hev
    have hshape := action_result_some_shape store _ ev hev
    rcases hshape with ⟨k, e, rfl⟩
    refine ⟨heq, ?_, ?_⟩
    · rw [heq]
      simp
    · rw [heq]
      intro hmem
      rcases List.mem_append.mp hmem with hmem | hmem
      · exact complete_not_mem_start_events _ hmem
      · simp at hmem

/-! ### Concrete stores for witnesses and counterexamples -/

/-- A concrete store whose `install` fails exactly on key `"bad"`. -/
def exec_store : PackageStore where
  find_package_by_key := fun _ => some ⟨⟩
  status := fun _ _ => Except.ok PackageStatus.NotInstalled
  install := fun k _ => if k = "bad" then Except.error ⟨7⟩ else Except.ok ()
  uninstall := fun _ _ => Except.ok ()
  find_package_dependencies := fun _ _ _ => Except.ok []

/-- A three-action plan whose second action fails against `exec_store`. -/
def exec_plan : List PackageAction :=
  [PackageAction.install "good" InstallTarget.system,
   PackageAction.install "bad" InstallTarget.system,
   PackageAction.install "late" InstallTarget.system]

/-- Witness for C5: on `exec_store` and `exec_plan` the stream is
`Installing good, Installing bad, Error bad` and contains no `Complete`. -/
theorem uncancelled_stream_protocol_witness :
    process_actions exec_store exec_plan
      = (exec_plan.take 2).map start_event
          ++ [TransactionEvent.Error "bad" (TransactionError.Install ⟨7⟩)] ∧
    (process_actions exec_store exec_plan).getLast?
      = some (TransactionEvent.Error "bad" (TransactionError.Install ⟨7⟩)) ∧
    TransactionEvent.Complete ∉ process_actions exec_store exec_plan :=
  (uncancelled_stream_protocol exec_store exec_plan).2.2.2 1 (by decide)
    (fun j hj => by
      have hj0 : j = 0 := Nat.lt_one_iff.mp hj
      subst hj0
      rfl)
    (TransactionEvent.Error "bad" (TransactionError.Install ⟨7⟩)) (by rfl)

/-- The dependency scenario of C1/C2: two known packages `"a"` and `"b"`,
where `"a"` transitively depends on `"b"`, both currently not installed. -/
def dep_store : PackageStore where
  find_package_by_key := fun k => if k = "a" ∨ k = "b" then some ⟨⟩ else none
  status := fun _ _ => Except.ok PackageStatus.NotInstalled
  install := fun _ _ => Except.ok ()
  uninstall := fun _ _ => Except.ok ()
  find_package_dependencies := fun k _ _ =>
    if k = "a" then Except.ok [("b", ⟨⟩)] else Except.ok []

/-! ### Step 1 expansion lemmas -/

/-- Specification of the dependency-appending fold inside
`process_install_action`: it only appends, appends only `Install` actions
with the caller action's target whose keys come from the dependency list,
appends a key only when no entry with that key is already present, and never
appends the same key twice. -/
lemma dep_fold_spec (action : PackageAction) (dependencies : List (PackageKey × Package)) :
    ∀ acc : List PackageAction,
      ∃ extra,
        dependencies.foldl
            (fun acc dependency =>
              if acc.any (fun x => x.id == dependency.fst) then acc
              else acc ++ [PackageAction.install dependency.fst action.target])
            acc
          = acc ++ extra ∧
        (∀ y ∈ extra,
          y.action = PackageActionType.Install ∧
          y.target = action.target ∧
          y.id ∈ dependencies.map Prod.fst ∧
          ∀ x ∈ acc, x.id ≠ y.id) ∧
        (extra.map (fun x => x.id)).Nodup := by
  induction dependencies with
  | nil =>
    intro acc
    exact ⟨[], by simp, by simp, by simp⟩
  | cons d deps ih =>
    intro acc
    by_cases hmem : acc.any (fun x => x.id == d.fst) = true
    · rcases ih acc with ⟨extra, heq, hprops, hnd⟩
      refine ⟨extra, ?_, ?_, hnd⟩
      · rw [List.foldl_cons, if_pos hmem, heq]
      · intro y hy
        rcases hprops y hy with ⟨h1, h2, h3, h4⟩
        exact ⟨h1, h2, by simp only [List.map_cons]; exact List.mem_cons_of_mem _ h3, h4⟩
    · have hfresh : ∀ x ∈ acc, x.id ≠ d.fst := by
        intro x hx hxe
        exact hmem (List.any_eq_true.mpr ⟨x, hx, by simp [hxe]⟩)
      rcases ih (acc ++ [PackageAction.install d.fst action.target])
        with ⟨extra', heq, hprops, hnd⟩
      refine ⟨PackageAction.install d.fst action.target :: extra', ?_, ?_, ?_⟩
      · rw [List.foldl_cons, if_neg hmem, heq, List.append_assoc]
        rfl
      · intro y hy
        rcases List.mem_cons.mp hy with hy | hy
        · subst hy
          refine ⟨rfl, rfl, by simp [PackageAction.install], hfresh⟩
        · rcases hprops y hy with ⟨h1, h2, h3, h4⟩
          refine ⟨h1, h2, by simp only [List.map_cons]; exact List.mem_cons_of_mem _ h3, ?_⟩
          intro x hx
          exact h4 x (List.mem_append_left _ hx)
      · rw [List.map_cons, List.nodup_cons]
        refine ⟨?_, hnd⟩
        intro hcontra
        rcases List.mem_map.mp hcontra with ⟨y, hy, hyid⟩
        rcases hprops y hy with ⟨_, _, _, h4⟩
        exact h4 (PackageAction.install d.fst action.target)
          (List.mem_append_right _ (List.mem_singleton.mpr rfl)) hyid.symm

/-- Specification of `process_install_action` on success: the working list is
extended by fresh `Install` actions drawn from the resolved dependency list. -/
lemma process_install_action_spec (store : PackageStore) (package : Package)
    (action : PackageAction) (acc r : List PackageAction)
    (h : process_install_action store package action acc = .ok r) :
    ∃ dependencies extra,
      store.find_package_dependencies action.id package action.target = .ok dependencies ∧
      r = acc ++ extra ∧
      (∀ y ∈ extra,
        y.action = PackageActionType.Install ∧
        y.target = action.target ∧
        y.id ∈ dependencies.map Prod.fst ∧
        ∀ x ∈ acc, x.id ≠ y.id) ∧
      (extra.map (fun x => x.id)).Nodup := by
  unfold process_install_action at h
  split at h
  next e heq => exact absurd h (by simp)
  next dependencies heq =>
    rcases dep_fold_spec action dependencies acc with ⟨extra, hfold, hprops, hnd⟩
    rw [Except.ok.injEq] at h
    exact ⟨dependencies, extra, heq, by rw [← h, hfold], hprops, hnd⟩

lemma except_bind_ok {α β ε : Type} (a : α) (f : α → Except ε β) :
    (Except.ok a >>= f) = f a := rfl

lemma except_bind_error {α β ε : Type} (e : ε) (f : α → Except ε β) :
    ((Except.error e : Except ε α) >>= f) = Except.error e := rfl

/-- Inversion of one successful Step 1 iteration: the working list is
extended by a (possibly empty) segment of fresh dependency installs, and the
caller action itself is appended exactly when no entry with its key is
present; when an entry with its key is present it has the same action type
(otherwise the iteration errors) and the list is left unchanged. -/
lemma collate_action_inv (store : PackageStore) (acc : List PackageAction)
    (action : PackageAction) (r : List PackageAction)
    (h : collate_action store acc action = .ok r) :
    ∃ package, store.find_package_by_key action.id = some package ∧
    ∃ mid seg,
      mid = acc ++ seg ∧
      (action.is_install = false → seg = []) ∧
      (action.is_install = true →
        process_install_action store package action acc = .ok mid) ∧
      (∀ y ∈ seg,
        y.action = PackageActionType.Install ∧
        y.target = action.target ∧
        ∀ x ∈ acc, x.id ≠ y.id) ∧
      (seg.map (fun x => x.id)).Nodup ∧
      ((∃ f, mid.find? (fun x => x.id == action.id) = some f ∧
          f.action = action.action ∧ r = mid) ∨
       (mid.find? (fun x => x.id == action.id) = none ∧ r = mid ++ [action])) := by
  unfold collate_action at h
  cases hfind : store.find_package_by_key action.id with
  | none => rw [hfind] at h; simp [except_bind_error] at h
  | some package =>
    rw [hfind] at h
    simp only [except_bind_ok] at h
    refine ⟨package, rfl, ?_⟩
    cases hinst : action.is_install with
    | false =>
      rw [hinst] at h
      simp only [Bool.false_eq_true, if_false, except_bind_ok] at h
      refine ⟨acc, [], by simp, fun _ => rfl, by simp, by simp, by simp, ?_⟩
      cases hfound : acc.find? (fun x => x.id == action.id) with
      | some f =>
        rw [hfound] at h
        dsimp only at h
        cases hne : (f.action != action.action) with
        | true => rw [hne] at h; simp at h
        | false =>
          rw [hne] at h
          simp only [Bool.false_eq_true, if_false, Except.ok.injEq] at h
          exact Or.inl ⟨f, rfl, by simpa using hne, h.symm⟩
      | none =>
        rw [hfound] at h
        dsimp only at h
        simp only [Except.ok.injEq] at h
        exact Or.inr ⟨rfl, h.symm⟩
    | true =>
      rw [hinst] at h
      simp only [if_true] at h
      cases hpia : process_install_action store package action acc with
      | error e => rw [hpia] at h; simp [except_bind_error] at h
      | ok mid =>
        rw [hpia] at h
        simp only [except_bind_ok] at h
        rcases process_install_action_spec store package action acc mid hpia
          with ⟨dependencies, extra, _, hmid, hprops, hnd⟩
        refine ⟨mid, extra, hmid, by simp, fun _ => rfl, ?_, hnd, ?_⟩
        · intro y hy
          rcases hprops y hy with ⟨h1, h2, _, h4⟩
          exact ⟨h1, h2, h4⟩
        · cases hfound : mid.find? (fun x => x.id == action.id) with
          | some f =>
            rw [hfound] at h
            dsimp only at h
            cases hne : (f.action != action.action) with
            | true => rw [hne] at h; simp at h
            | false =>
              rw [hne] at h
              simp only [Bool.false_eq_true, if_false, Except.ok.injEq] at h
              exact Or.inl ⟨f, rfl, by simpa using hne, h.symm⟩
          | none =>
            rw [hfound] at h
            dsimp only at h
            simp only [Except.ok.injEq] at h
            exact Or.inr ⟨rfl, h.symm⟩

/-- A successful Step 1 iteration preserves distinctness of the keys of the
working list. -/
lemma collate_action_nodup (store : PackageStore) (acc : List PackageAction)
    (action : PackageAction) (r : List PackageAction)
    (h : collate_action store acc action = .ok r)
    (hnd : (acc.map (fun x => x.id)).Nodup) :
    (r.map (fun x => x.id)).Nodup := by
  rcases collate_action_inv store acc action r h
    with ⟨package, hfind, mid, seg, hmid, _, _, hfresh, hsegnd, hlast⟩
  have hmidnd : (mid.map (fun x => x.id)).Nodup := by
    subst hmid
    rw [List.map_append, List.nodup_append]
    refine ⟨hnd, hsegnd, ?_⟩
    intro k hk1 hk2
    rcases List.mem_map.mp hk1 with ⟨x, hx, hxid⟩
    rcases List.mem_map.mp hk2 with ⟨y, hy, hyid⟩
    exact (hfresh y hy).2.2 x hx (hxid.trans hyid.symm)
  rcases hlast with ⟨f, _, _, hr⟩ | ⟨hnone, hr⟩
  · rw [hr]
    exact hmidnd
  · rw [hr, List.map_append, List.nodup_append]
    refine ⟨hmidnd, by simp, ?_⟩
    intro k hk1 hk2
    rcases List.mem_map.mp hk1 with ⟨x, hx, hxid⟩
    have hne := List.find?_eq_none.mp hnone x hx
    simp only [beq_iff_eq] at hne
    simp only [List.map_cons, List.map_nil, List.mem_singleton] at hk2
    exact hne (hxid.trans hk2)

/-- The Step 1 fold preserves distinctness of the keys of the working list. -/
lemma collate_go_nodup (store : PackageStore) :
    ∀ (acts acc l : List PackageAction),
      (acc.map (fun x => x.id)).Nodup →
      List.foldlM (collate_action store) acc acts = .ok l →
      (l.map (fun x => x.id)).Nodup := by
  intro acts
  induction acts with
  | nil =>
    intro acc l hnd h
    rw [List.foldlM_nil] at h
    injection h with h
    rw [← h]
    exact hnd
  | cons a rest ih =>
    intro acc l hnd h
    rw [List.foldlM_cons] at h
    cases hstep : collate_action store acc a with
    | error e => rw [hstep] at h; simp [except_bind_error] at h
    | ok acc' =>
      rw [hstep, except_bind_ok] at h
      exact ih acc' l (collate_action_nodup store acc a acc' hstep hnd) h

/-- The contradiction sweep passes the working list through unchanged when it
succeeds. -/
lemma contradiction_sweep_ok (l r : List PackageAction)
    (h : contradiction_sweep l = .ok r) : r = l := by
  unfold contradiction_sweep at h
  dsimp only at h
  split at h
  · simp at h
  · injection h with h
    exact h.symm

/-- Success characterisation of the Step 3 fold: the output is the input
filtered by the `survives` predicate, and every status query succeeded. -/
lemma filter_go_spec (store : PackageStore) :
    ∀ (l acc out : List PackageAction),
      List.foldlM
          (fun out action => do
            let status ←
              match store.status action.id action.target with
              | .ok s => Except.ok s
              | .error err => Except.error (PackageTransactionError.InvalidStatus err)
            let is_valid := is_necessary_for status action
            Except.ok (if is_valid then out ++ [action] else out))
          acc l = .ok out →
      out = acc ++ l.filter (fun a => survives store a) ∧
      ∀ a ∈ l, ∃ s, store.status a.id a.target = Except.ok s := by
  intro l
  induction l with
  | nil =>
    intro acc out h
    rw [List.foldlM_nil] at h
    injection h with h
    exact ⟨by simp [← h], by simp⟩
  | cons a rest ih =>
    intro acc out h
    rw [List.foldlM_cons] at h
    cases hst : store.status a.id a.target with
    | error err =>
      rw [hst] at h
      dsimp only at h
      simp [except_bind_error] at h
    | ok s =>
      rw [hst] at h
      dsimp only at h
      simp only [except_bind_ok] at h
      have hsurv : survives store a = is_necessary_for s a := by
        unfold survives
        rw [hst]
      obtain ⟨h1, h2⟩ := ih _ out h
      refine ⟨?_, ?_⟩
      · rw [h1, List.filter_cons, hsurv]
        cases hnec : is_necessary_for s a with
        | true => simp [hnec]
        | false => simp [hnec]
      · intro x hx
        rcases List.mem_cons.mp hx with hx | hx
        · exact ⟨s, by rw [hx]; exact hst⟩
        · exact h2 x hx

/-- Success characterisation of Step 3. -/
lemma filter_necessary_ok (store : PackageStore) (l out : List PackageAction)
    (h : filter_necessary store l = .ok out) :
    out = l.filter (fun a => survives store a) ∧
    ∀ a ∈ l, ∃ s, store.status a.id a.target = Except.ok s := by
  have := filter_go_spec store l [] out h
  simpa using this

/-- Every failure of the Step 3 fold is an `InvalidStatus`. -/
lemma filter_go_error_shape (store : PackageStore) :
    ∀ (l acc : List PackageAction) (err : PackageTransactionError),
      List.foldlM
          (fun out action => do
            let status ←
              match store.status action.id action.target with
              | .ok s => Except.ok s
              | .error err => Except.error (PackageTransactionError.InvalidStatus err)
            let is_valid := is_necessary_for status action
            Except.ok (if is_valid then out ++ [action] else out))
          acc l = .error err →
      ∃ e, err = PackageTransactionError.InvalidStatus e := by
  intro l
  induction l with
  | nil =>
    intro acc err h
    rw [List.foldlM_nil] at h
    simp [pure, Except.pure] at h
  | cons a rest ih =>
    intro acc err h
    rw [List.foldlM_cons] at h
    cases hst : store.status a.id a.target with
    | error e =>
      rw [hst] at h
      dsimp only at h
      simp only [except_bind_error, Except.error.injEq] at h
      exact ⟨e, h.symm⟩
    | ok s =>
      rw [hst] at h
      dsimp only at h
      simp only [except_bind_ok] at h
      exact ih _ err h

/-- When some action of the working list has a failing status query, Step 3
fails with `InvalidStatus`. -/
lemma filter_necessary_invalid (store : PackageStore) (l : List PackageAction)
    (hbad : ∃ a ∈ l, ¬∃ s, store.status a.id a.target = Except.ok s) :
    ∃ e, filter_necessary store l = .error (PackageTransactionError.InvalidStatus e) := by
  cases hres : filter_necessary store l with
  | ok out =>
    rcases filter_necessary_ok store l out hres with ⟨_, hall⟩
    rcases hbad with ⟨a, ha, hbad⟩
    exact absurd (hall a ha) hbad
  | error err =>
    rcases filter_go_error_shape store l [] err hres with ⟨e, he⟩
    exact ⟨e, by rw [he]⟩

/-- Inversion of a successful `PackageTransaction::new`: the three planning
steps succeeded in sequence and the frozen plan is Step 3's output. -/
lemma new_inv (store : PackageStore) (acts : List PackageAction)
    (t : PackageTransaction) (h : PackageTransaction.new store acts = .ok t) :
    ∃ expanded,
      collate store acts = .ok expanded ∧
      contradiction_sweep expanded = .ok expanded ∧
      filter_necessary store expanded = .ok t.actions ∧
      t.store = store := by
  unfold PackageTransaction.new at h
  cases hc : collate store acts with
  | error e => rw [hc] at h; simp [except_bind_error] at h
  | ok expanded =>
    rw [hc, except_bind_ok] at h
    cases hs : contradiction_sweep expanded with
    | error e => rw [hs] at h; simp [except_bind_error] at h
    | ok expanded' =>
      have he : expanded' = expanded := contradiction_sweep_ok _ _ hs
      subst he
      rw [hs, except_bind_ok] at h
      cases hf : filter_necessary store expanded' with
      | error e => rw [hf] at h; simp [except_bind_error] at h
      | ok out =>
        rw [hf, except_bind_ok] at h
        injection h with h2
        subst h2
        exact ⟨expanded', rfl, hs, hf, rfl⟩

/-! ### Claim C3: no-op filtering semantics -/

/-- C3: in a successful `PackageTransaction::new` the frozen plan is exactly
the expanded working list filtered by the Step 3 necessity predicate
(`survives`: `Install` kept iff status ≠ `UpToDate`; `Uninstall` kept iff
status is `UpToDate` or `RequiresUpdate`), every status query having
succeeded; and if some status query on the expanded list fails, `new`
returns `Err(InvalidStatus(_))` and no transaction is constructed. -/
theorem noop_filter_semantics :
    (∀ (store : PackageStore) (acts : List PackageAction) (t : PackageTransaction),
      PackageTransaction.new store acts = .ok t →
      ∃ expanded,
        collate store acts = .ok expanded ∧
        (∀ a ∈ expanded, ∃ s, store.status a.id a.target = Except.ok s) ∧
        t.actions = expanded.filter (fun a => survives store a)) ∧
    (∀ (store : PackageStore) (acts expanded : List PackageAction),
      collate store acts = .ok expanded →
      contradiction_sweep expanded = .ok expanded →
      (∃ a ∈ expanded, ¬∃ s, store.status a.id a.target = Except.ok s) →
      ∃ e, PackageTransaction.new store acts
        = .error (PackageTransactionError.InvalidStatus e)) := by
  constructor
  · intro store acts t h
    rcases new_inv store acts t h with ⟨expanded, hc, _, hf, _⟩
    rcases filter_necessary_ok store expanded t.actions hf with ⟨hout, hall⟩
    exact ⟨expanded, hc, hall, hout⟩
  · intro store acts expanded hc hs hbad
    rcases filter_necessary_invalid store expanded hbad with ⟨e, hfe⟩
    refine ⟨e, ?_⟩
    unfold PackageTransaction.new
    rw [hc, except_bind_ok, hs, except_bind_ok, hfe, except_bind_error]

/-- Witness for C3 at `dep_store` with the single action `Install "b"`. -/
theorem noop_filter_semantics_witness :
    ∃ expanded,
      collate dep_store [PackageAction.install "b" InstallTarget.system] = .ok expanded ∧
      (∀ a ∈ expanded, ∃ s, dep_store.status a.id a.target = Except.ok s) ∧
      (PackageTransaction.mk dep_store
          [PackageAction.install "b" InstallTarget.system]).actions
        = expanded.filter (fun a => survives dep_store a) :=
  noop_filter_semantics.1 dep_store [PackageAction.install "b" InstallTarget.system]
    (PackageTransaction.mk dep_store [PackageAction.install "b" InstallTarget.system]) rfl

/-! ### Claim C9: at most one action per key -/

/-- C9: every successfully built plan has pairwise-distinct package keys; a
caller action whose key is already in the working list with the same action
type is dropped (even when its target differs), leaving the entries with
that key unchanged; and an auto-inserted dependency is skipped whenever any
entry with its key is already present, whatever that entry's type or
target. -/
theorem plan_unique_keys :
    (∀ (store : PackageStore) (acts : List PackageAction) (t : PackageTransaction),
      PackageTransaction.new store acts = .ok t →
      (t.actions.map (fun a => a.id)).Nodup) ∧
    (∀ (store : PackageStore) (acc : List PackageAction) (action : PackageAction)
        (r : List PackageAction),
      (∃ x ∈ acc, x.id = action.id ∧ x.action = action.action) →
      collate_action store acc action = .ok r →
      r.filter (fun y => y.id == action.id) = acc.filter (fun y => y.id == action.id)) ∧
    (∀ (store : PackageStore) (package : Package) (action : PackageAction)
        (acc r : List PackageAction) (k : PackageKey),
      (∃ x ∈ acc, x.id = k) →
      process_install_action store package action acc = .ok r →
      r.filter (fun y => y.id == k) = acc.filter (fun y => y.id == k)) := by
  refine ⟨?_, ?_, ?_⟩
  · intro store acts t h
    rcases new_inv store acts t h with ⟨expanded, hc, _, hf, _⟩
    have hnd : (expanded.map (fun x => x.id)).Nodup :=
      collate_go_nodup store acts [] expanded (by simp) hc
    rcases filter_necessary_ok store expanded t.actions hf with ⟨hout, _⟩
    rw [hout]
    exact hnd.sublist (List.Sublist.map _ (List.filter_sublist expanded))
  · intro store acc action r hex h
    rcases collate_action_inv store acc action r h
      with ⟨package, _, mid, seg, hmid, _, _, hfresh, _, hlast⟩
    rcases hex with ⟨x, hx, hxid, _⟩
    have hsegne : ∀ y ∈ seg, ¬((fun y => y.id == action.id) y = true) := by
      intro y hy hbeq
      simp only [beq_iff_eq] at hbeq
      exact (hfresh y hy).2.2 x hx (hxid.trans hbeq.symm)
    have hmidfilter : mid.filter (fun y => y.id == action.id)
        = acc.filter (fun y => y.id == action.id) := by
      subst hmid
      rw [List.filter_append, List.filter_eq_nil_iff.mpr hsegne, List.append_nil]
    rcases hlast with ⟨f, _, _, hr⟩ | ⟨hnone, hr⟩
    · rw [hr]
      exact hmidfilter
    · exfalso
      have hne := List.find?_eq_none.mp hnone x
        (by subst hmid; exact List.mem_append_left _ hx)
      simp only [beq_iff_eq] at hne
      exact hne hxid
  · intro store package action acc r k hex h
    rcases process_install_action_spec store package action acc r h
      with ⟨dependencies, extra, _, hr, hprops, _⟩
    rcases hex with ⟨x, hx, hxid⟩
    have hextrane : ∀ y ∈ extra, ¬((fun y => y.id == k) y = true) := by
      intro y hy hbeq
      simp only [beq_iff_eq] at hbeq
      exact (hprops y hy).2.2.2 x hx (hxid.trans hbeq.symm)
    rw [hr, List.filter_append, List.filter_eq_nil_iff.mpr hextrane, List.append_nil]

/-- Witness for C9: the plan built from `[Uninstall b, Install a]` on
`dep_store` has pairwise-distinct keys. -/
theorem plan_unique_keys_witness :
    ((PackageTransaction.mk dep_store
        [PackageAction.install "a" InstallTarget.system]).actions.map
      (fun a => a.id)).Nodup :=
  plan_unique_keys.1 dep_store
    [PackageAction.uninstall "b" InstallTarget.system,
     PackageAction.install "a" InstallTarget.system]
    (PackageTransaction.mk dep_store [PackageAction.install "a" InstallTarget.system]) rfl

/-! ### Claim C8: the planner performs no install/uninstall side effect -/

lemma foldlM_congr {α β ε : Type} (f g : β → α → Except ε β)
    (hfg : ∀ acc a, f acc a = g acc a) :
    ∀ (l : List α) (acc : β), List.foldlM f acc l = List.foldlM g acc l := by
  intro l
  induction l with
  | nil => intro acc; rfl
  | cons a rest ih =>
    intro acc
    rw [List.foldlM_cons, List.foldlM_cons, hfg]
    cases hg : g acc a with
    | error e => rw [except_bind_error, except_bind_error]
    | ok acc' =>
      rw [except_bind_ok, except_bind_ok]
      exact ih acc'

lemma process_install_action_congr (s1 s2 : PackageStore)
    (hdeps : s1.find_package_dependencies = s2.find_package_dependencies) :
    ∀ (package : Package) (action : PackageAction) (acc : List PackageAction),
      process_install_action s1 package action acc
        = process_install_action s2 package action acc := by
  intro package action acc
  unfold process_install_action
  rw [hdeps]

lemma collate_action_congr (s1 s2 : PackageStore)
    (hfind : s1.find_package_by_key = s2.find_package_by_key)
    (hdeps : s1.find_package_dependencies = s2.find_package_dependencies) :
    ∀ (acc : List PackageAction) (action : PackageAction),
      collate_action s1 acc action = collate_action s2 acc action := by
  intro acc action
  unfold collate_action
  rw [hfind]
  simp only [process_install_action_congr s1 s2 hdeps]

lemma filter_necessary_congr (s1 s2 : PackageStore) (hstatus : s1.status = s2.status) :
    ∀ l : List PackageAction, filter_necessary s1 l = filter_necessary s2 l := by
  intro l
  unfold filter_necessary
  apply foldlM_congr
  intro out action
  rw [hstatus]

/-- C8: `PackageTransaction::new` never invokes `store.install` or
`store.uninstall`: its outcome (the error, or the frozen plan of the
constructed transaction) is a function of the read-only capabilities alone —
two stores that agree on `find_package_by_key`, `status` and
`find_package_dependencies` but differ arbitrarily in `install`/`uninstall`
yield the same planning outcome.  In particular every planner error is
returned synchronously with no transaction constructed and no install or
uninstall effect performed. -/
theorem planner_reads_only (s1 s2 : PackageStore) (acts : List PackageAction)
    (hfind : s1.find_package_by_key = s2.find_package_by_key)
    (hstatus : s1.status = s2.status)
    (hdeps : s1.find_package_dependencies = s2.find_package_dependencies) :
    Except.map (fun t => t.actions) (PackageTransaction.new s1 acts)
      = Except.map (fun t => t.actions) (PackageTransaction.new s2 acts) := by
  have hcol : collate s1 acts = collate s2 acts :=
    foldlM_congr _ _ (fun acc a => collate_action_congr s1 s2 hfind hdeps acc a) acts []
  unfold PackageTransaction.new
  rw [hcol]
  cases h2 : collate s2 acts with
  | error e => rw [except_bind_error, except_bind_error]
  | ok expanded =>
    rw [except_bind_ok, except_bind_ok]
    cases hs : contradiction_sweep expanded with
    | error e => rw [except_bind_error, except_bind_error]
    | ok l =>
      rw [except_bind_ok, except_bind_ok, filter_necessary_congr s1 s2 hstatus l]
      cases hf : filter_necessary s2 l with
      | error e => rw [except_bind_error, except_bind_error]
      | ok out =>
        rw [except_bind_ok, except_bind_ok]
        rfl

/-- `dep_store` with every install and uninstall failing: used to witness
that the planner's outcome does not depend on those capabilities. -/
def dep_store_failing : PackageStore where
  find_package_by_key := fun k => if k = "a" ∨ k = "b" then some ⟨⟩ else none
  status := fun _ _ => Except.ok PackageStatus.NotInstalled
  install := fun _ _ => Except.error ⟨1⟩
  uninstall := fun _ _ => Except.error ⟨2⟩
  find_package_dependencies := fun k _ _ =>
    if k = "a" then Except.ok [("b", ⟨⟩)] else Except.ok []

/-- Witness for C8: planning `[Install a]` yields the same plan on
`dep_store` and on `dep_store_failing`. -/
theorem planner_reads_only_witness :
    Except.map (fun t => t.actions)
        (PackageTransaction.new dep_store [PackageAction.install "a" InstallTarget.user])
      = Except.map (fun t => t.actions)
        (PackageTransaction.new dep_store_failing
          [PackageAction.install "a" InstallTarget.user]) :=
  planner_reads_only dep_store dep_store_failing
    [PackageAction.install "a" InstallTarget.user] rfl rfl rfl

/-! ### Claims C1 and C2: the dependency/uninstall contradiction is
order-dependent, violating detection and plan completeness -/

/-- C1 (evaluation at the failing input): on `dep_store`, where `"a"`
transitively depends on `"b"`, the caller list `[Uninstall b, Install a]`
is accepted — the planner silently skips the dependency install of `"b"`
and returns the plan `[Install a]` — whereas the same two actions in the
opposite order are rejected with `ActionContradiction("b")`.  Detection is
therefore order-dependent, contrary to the claim. -/
theorem contradiction_detection_order_dependent :
    Except.map (fun t => t.actions)
        (PackageTransaction.new dep_store
          [PackageAction.uninstall "b" InstallTarget.system,
           PackageAction.install "a" InstallTarget.system])
      = Except.ok [PackageAction.install "a" InstallTarget.system] ∧
    Except.map (fun t => t.actions)
        (PackageTransaction.new dep_store
          [PackageAction.install "a" InstallTarget.system,
           PackageAction.uninstall "b" InstallTarget.system])
      = Except.error (PackageTransactionError.ActionContradiction "b") ∧
    dep_store.find_package_dependencies "a" ⟨⟩ InstallTarget.system
      = Except.ok [("b", ⟨⟩)] :=
  ⟨rfl, rfl, rfl⟩

/-- C2 (evaluation at the failing input): the plan built from
`[Uninstall b, Install a]` on `dep_store` is `[Install a]`, yet `"b"` is a
transitive dependency of `"a"`, does not appear in the plan at all, and its
status at plan-build time is `NotInstalled`, not `UpToDate` — violating the
completeness invariant P1. -/
theorem dependency_completeness_fails :
    Except.map (fun t => t.actions)
        (PackageTransaction.new dep_store
          [PackageAction.uninstall "b" InstallTarget.system,
           PackageAction.install "a" InstallTarget.system])
      = Except.ok [PackageAction.install "a" InstallTarget.system] ∧
    dep_store.find_package_dependencies "a" ⟨⟩ InstallTarget.system
      = Except.ok [("b", ⟨⟩)] ∧
    "b" ∉ [PackageAction.install "a" InstallTarget.system].map (fun a => a.id) ∧
    dep_store.status "b" InstallTarget.system = Except.ok PackageStatus.NotInstalled :=
  ⟨rfl, rfl, by decide, rfl⟩

/-! ### Claim C4: ordering of the produced plan

Step 1 is re-run with a provenance tag on every appended entry: the index of
the caller iteration that appended it, and whether it is the caller's own
action (`true`) or an auto-inserted dependency (`false`).  The instrumented
functions perform exactly the computation of `process_install_action` /
`collate` on the second components and erase to them (proved below); the
tags make the ordering guarantees of the claim statable. -/

/-- Provenance tag: caller-iteration index, and whether the entry is the
caller's own action (`true`) or an auto-inserted dependency (`false`). -/
abbrev Tag := Nat × Bool

/-- Tag order along the working list: iteration indices strictly increase,
except within one iteration, where dependency entries precede the (single)
caller entry. -/
def tag_before (t1 t2 : Tag) : Prop :=
  t1.fst < t2.fst ∨ (t1.fst = t2.fst ∧ t1.snd = false)

/-- `process_install_action` instrumented with provenance tags. -/
def process_install_actionT (store : PackageStore) (package : Package) (i : Nat)
    (action : PackageAction) (acc : List (Tag × PackageAction)) :
    Except PackageTransactionError (List (Tag × PackageAction)) :=
  match store.find_package_dependencies action.id package action.target with
  | .error e => .error (PackageTransactionError.Deps e)
  | .ok dependencies =>
    .ok (dependencies.foldl
      (fun acc dependency =>
        if acc.any (fun x => x.snd.id == dependency.fst) then acc
        else acc ++ [((i, false), PackageAction.install dependency.fst action.target)])
      acc)

/-- One Step 1 iteration instrumented with provenance tags. -/
def collate_actionT (store : PackageStore) (i : Nat)
    (acc : List (Tag × PackageAction)) (action : PackageAction) :
    Except PackageTransactionError (List (Tag × PackageAction)) := do
  let package ←
    match store.find_package_by_key action.id with
    | some p => Except.ok p
    | none => Except.error (PackageTransactionError.NoPackage (toString action.id))
  let acc ←
    if action.is_install then
      process_install_actionT store package i action acc
    else
      Except.ok acc
  match acc.find? (fun x => x.snd.id == action.id) with
  | some found_action =>
    if found_action.snd.action != action.action then
      Except.error (PackageTransactionError.ActionContradiction (toString action.id))
    else
      Except.ok acc
  | none => Except.ok (acc ++ [((i, true), action)])

/-- The Step 1 loop instrumented with provenance tags, carrying the index of
the next caller action. -/
def collateT_go (store : PackageStore) :
    Nat → List (Tag × PackageAction) → List PackageAction →
      Except PackageTransactionError (List (Tag × PackageAction))
  | _, acc, [] => .ok acc
  | i, acc, action :: rest => do
    let acc ← collate_actionT store i acc action
    collateT_go store (i + 1) acc rest

/-- Instrumented Step 1 over the caller actions. -/
def collateT (store : PackageStore) (actions : List PackageAction) :
    Except PackageTransactionError (List (Tag × PackageAction)) :=
  collateT_go store 0 [] actions

lemma any_map_snd (l : List (Tag × PackageAction)) (p : PackageAction → Bool) :
    (l.map Prod.snd).any p = l.any (fun x => p x.snd) := by
  induction l with
  | nil => rfl
  | cons a rest ih => simp [List.any_cons, ih]

lemma find?_map_snd (l : List (Tag × PackageAction)) (p : PackageAction → Bool) :
    (l.map Prod.snd).find? p = Option.map Prod.snd (l.find? (fun x => p x.snd)) := by
  induction l with
  | nil => rfl
  | cons a rest ih =>
    cases hp : p a.snd with
    | true => simp [List.find?_cons, hp]
    | false => simp [List.find?_cons, hp, ih]

lemma dep_foldT_erase (action : PackageAction) (i : Nat) :
    ∀ (deps : List (PackageKey × Package)) (accT : List (Tag × PackageAction)),
      (deps.foldl
        (fun acc dependency =>
          if acc.any (fun x => x.snd.id == dependency.fst) then acc
          else acc ++ [((i, false), PackageAction.install dependency.fst action.target)])
        accT).map Prod.snd
      = deps.foldl
          (fun acc dependency =>
            if acc.any (fun x => x.id == dependency.fst) then acc
            else acc ++ [PackageAction.install dependency.fst action.target])
          (accT.map Prod.snd) := by
  intro deps
  induction deps with
  | nil => intro accT; rfl
  | cons d rest ih =>
    intro accT
    rw [List.foldl_cons, List.foldl_cons]
    have hany : (accT.map Prod.snd).any (fun x => x.id == d.fst)
        = accT.any (fun x => x.snd.id == d.fst) := any_map_snd accT _
    rw [hany]
    cases hc : accT.any (fun x => x.snd.id == d.fst) with
    | true =>
      rw [if_pos rfl, if_pos rfl]
      exact ih accT
    | false =>
      rw [if_neg (by simp), if_neg (by simp)]
      rw [ih (accT ++ [((i, false), PackageAction.install d.fst action.target)])]
      rw [List.map_append]
      rfl

lemma process_install_actionT_erase (store : PackageStore) (package : Package)
    (i : Nat) (action : PackageAction) (accT : List (Tag × PackageAction)) :
    Except.map (fun l => l.map Prod.snd)
        (process_install_actionT store package i action accT)
      = process_install_action store package action (accT.map Prod.snd) := by
  unfold process_install_actionT process_install_action
  cases hdeps : store.find_package_dependencies action.id package action.target with
  | error e => rfl
  | ok deps =>
    dsimp only
    rw [show (Except.map (fun l : List (Tag × PackageAction) => l.map Prod.snd)
        (Except.ok (deps.foldl _ accT)))
      = Except.ok ((deps.foldl
          (fun acc dependency =>
            if acc.any (fun x => x.snd.id == dependency.fst) then acc
            else acc ++ [((i, false), PackageAction.install dependency.fst action.target)])
          accT).map Prod.snd) from rfl]
    rw [dep_foldT_erase action i deps accT]

lemma collate_actionT_erase (store : PackageStore) (i : Nat)
    (accT : List (Tag × PackageAction)) (action : PackageAction) :
    Except.map (fun l => l.map Prod.snd) (collate_actionT store i accT action)
      = collate_action store (accT.map Prod.snd) action := by
  unfold collate_actionT collate_action
  cases hfind : store.find_package_by_key action.id with
  | none => rfl
  | some package =>
    simp only [except_bind_ok]
    cases hinst : action.is_install with
    | false =>
      simp only [Bool.false_eq_true, if_false, except_bind_ok]
      cases hfound : accT.find? (fun x => x.snd.id == action.id) with
      | none =>
        have hplain : (accT.map Prod.snd).find? (fun x => x.id == action.id) = none := by
          rw [find?_map_snd accT (fun y => y.id == action.id), hfound]
          rfl
        rw [hplain]
        simp [Except.map, List.map_append]
      | some f =>
        have hplain : (accT.map Prod.snd).find? (fun x => x.id == action.id) = some f.snd := by
          rw [find?_map_snd accT (fun y => y.id == action.id), hfound]
          rfl
        rw [hplain]
        dsimp only
        cases hne : (f.snd.action != action.action) with
        | true => rw [if_pos rfl, if_pos rfl]; rfl
        | false => rw [if_neg (by simp), if_neg (by simp)]; rfl
    | true =>
      simp only [if_true]
      have herase := process_install_actionT_erase store package i action accT
      cases hpiaT : process_install_actionT store package i action accT with
      | error e =>
        rw [hpiaT] at herase
        rw [← herase]
        rfl
      | ok midT =>
        rw [hpiaT] at herase
        rw [← herase]
        simp only [show Except.map (fun l : List (Tag × PackageAction) => l.map Prod.snd)
              (Except.ok midT) = Except.ok (midT.map Prod.snd) from rfl,
            except_bind_ok]
        cases hfound : midT.find? (fun x => x.snd.id == action.id) with
        | none =>
          have hplain : (midT.map Prod.snd).find? (fun x => x.id == action.id) = none := by
            rw [find?_map_snd midT (fun y => y.id == action.id), hfound]
            rfl
          rw [hplain]
          simp [Except.map, List.map_append]
        | some f =>
          have hplain : (midT.map Prod.snd).find? (fun x => x.id == action.id) = some f.snd := by
            rw [find?_map_snd midT (fun y => y.id == action.id), hfound]
            rfl
          rw [hplain]
          dsimp only
          cases hne : (f.snd.action != action.action) with
          | true => rw [if_pos rfl, if_pos rfl]; rfl
          | false => rw [if_neg (by simp), if_neg (by simp)]; rfl

lemma collateT_go_erase (store : PackageStore) :
    ∀ (acts : List PackageAction) (i : Nat) (accT : List (Tag × PackageAction)),
      Except.map (fun l => l.map Prod.snd) (collateT_go store i accT acts)
        = List.foldlM (collate_action store) (accT.map Prod.snd) acts := by
  intro acts
  induction acts with
  | nil => intro i accT; rfl
  | cons a rest ih =>
    intro i accT
    rw [List.foldlM_cons]
    have herase := collate_actionT_erase store i accT a
    cases hstep : collate_actionT store i accT a with
    | error e =>
      rw [hstep] at herase
      rw [← herase]
      unfold collateT_go
      rw [hstep]
      rfl
    | ok accT' =>
      rw [hstep] at herase
      rw [← herase]
      unfold collateT_go
      rw [hstep]
      simp only [Except.map_ok, except_bind_ok]
      exact ih (i + 1) accT'

/-- The instrumented Step 1 erases to the real Step 1. -/
lemma collateT_erase (store : PackageStore) (acts : List PackageAction) :
    Except.map (fun l => l.map Prod.snd) (collateT store acts) = collate store acts :=
  collateT_go_erase store acts 0 []

/-- The entry is the caller action at its recorded input index. -/
def caller_entry (acts : List PackageAction) (x : Tag × PackageAction) : Prop :=
  ∃ h : x.fst.fst < acts.length, x.snd = acts.get ⟨x.fst.fst, h⟩

/-- The entry is an `Install` action auto-inserted for a resolved dependency
of the caller `Install` action at its recorded input index, carrying that
caller action's target. -/
def dep_entry (store : PackageStore) (acts : List PackageAction)
    (x : Tag × PackageAction) : Prop :=
  ∃ h : x.fst.fst < acts.length,
    (acts.get ⟨x.fst.fst, h⟩).is_install = true ∧
    x.snd.action = PackageActionType.Install ∧
    x.snd.target = (acts.get ⟨x.fst.fst, h⟩).target ∧
    ∃ package dependencies,
      store.find_package_by_key (acts.get ⟨x.fst.fst, h⟩).id = some package ∧
      store.find_package_dependencies (acts.get ⟨x.fst.fst, h⟩).id package
        (acts.get ⟨x.fst.fst, h⟩).target = Except.ok dependencies ∧
      x.snd.id ∈ dependencies.map Prod.fst

/-- Invariant of the instrumented working list after `n` caller iterations:
tags are ordered by `tag_before`, all indices are below `n`, caller-tagged
entries are the corresponding caller actions, and dependency-tagged entries
are auto-inserted dependency installs of the corresponding caller action. -/
def expandT_inv (store : PackageStore) (acts : List PackageAction) (n : Nat)
    (l : List (Tag × PackageAction)) : Prop :=
  (l.map Prod.fst).Pairwise tag_before ∧
  (∀ x ∈ l, x.fst.fst < n) ∧
  (∀ x ∈ l, x.fst.snd = true → caller_entry acts x) ∧
  (∀ x ∈ l, x.fst.snd = false → dep_entry store acts x)

lemma dep_foldT_spec (action : PackageAction) (i : Nat)
    (dependencies : List (PackageKey × Package)) :
    ∀ accT, ∃ extra,
      dependencies.foldl
          (fun acc dependency =>
            if acc.any (fun x => x.snd.id == dependency.fst) then acc
            else acc ++ [((i, false), PackageAction.install dependency.fst action.target)])
          accT
        = accT ++ extra ∧
      ∀ y ∈ extra,
        y.fst = (i, false) ∧
        y.snd.action = PackageActionType.Install ∧
        y.snd.target = action.target ∧
        y.snd.id ∈ dependencies.map Prod.fst := by
  induction dependencies with
  | nil => intro accT; exact ⟨[], by simp, by simp⟩
  | cons d deps ih =>
    intro accT
    rw [List.foldl_cons]
    cases hc : accT.any (fun x => x.snd.id == d.fst) with
    | true =>
      rw [if_pos rfl]
      rcases ih accT with ⟨extra, heq, hprops⟩
      refine ⟨extra, heq, ?_⟩
      intro y hy
      rcases hprops y hy with ⟨h1, h2, h3, h4⟩
      exact ⟨h1, h2, h3, by simp only [List.map_cons]; exact List.mem_cons_of_mem _ h4⟩
    | false =>
      rw [if_neg (by simp)]
      rcases ih (accT ++ [((i, false), PackageAction.install d.fst action.target)])
        with ⟨extra, heq, hprops⟩
      refine ⟨((i, false), PackageAction.install d.fst action.target) :: extra, ?_, ?_⟩
      · rw [heq, List.append_assoc]
        rfl
      · intro y hy
        rcases List.mem_cons.mp hy with hy | hy
        · subst hy
          exact ⟨rfl, rfl, rfl, by simp [PackageAction.install]⟩
        · rcases hprops y hy with ⟨h1, h2, h3, h4⟩
          exact ⟨h1, h2, h3, by simp only [List.map_cons]; exact List.mem_cons_of_mem _ h4⟩

lemma process_install_actionT_spec (store : PackageStore) (package : Package)
    (i : Nat) (action : PackageAction) (accT r : List (Tag × PackageAction))
    (h : process_install_actionT store package i action accT = .ok r) :
    ∃ dependencies extra,
      store.find_package_dependencies action.id package action.target
        = Except.ok dependencies ∧
      r = accT ++ extra ∧
      ∀ y ∈ extra,
        y.fst = (i, false) ∧
        y.snd.action = PackageActionType.Install ∧
        y.snd.target = action.target ∧
        y.snd.id ∈ dependencies.map Prod.fst := by
  unfold process_install_actionT at h
  split at h
  next e heq => exact absurd h (by simp)
  next dependencies heq =>
    rcases dep_foldT_spec action i dependencies accT with ⟨extra, hfold, hprops⟩
    rw [Except.ok.injEq] at h
    exact ⟨dependencies, extra, heq, by rw [← h, hfold], hprops⟩

/-- Inversion of one successful instrumented Step 1 iteration, keeping only
what the ordering invariant needs. -/
lemma collate_actionT_inv (store : PackageStore) (i : Nat)
    (accT : List (Tag × PackageAction)) (action : PackageAction)
    (r : List (Tag × PackageAction))
    (h : collate_actionT store i accT action = .ok r) :
    ∃ package, store.find_package_by_key action.id = some package ∧
    ∃ extra,
      (action.is_install = false → extra = []) ∧
      (action.is_install = true →
        ∃ dependencies,
          store.find_package_dependencies action.id package action.target
            = Except.ok dependencies ∧
          ∀ y ∈ extra,
            y.fst = (i, false) ∧
            y.snd.action = PackageActionType.Install ∧
            y.snd.target = action.target ∧
            y.snd.id ∈ dependencies.map Prod.fst) ∧
      (r = accT ++ extra ∨ r = (accT ++ extra) ++ [((i, true), action)]) := by
  unfold collate_actionT at h
  cases hfind : store.find_package_by_key action.id with
  | none => rw [hfind] at h; simp [except_bind_error] at h
  | some package =>
    rw [hfind] at h
    simp only [except_bind_ok] at h
    refine ⟨package, rfl, ?_⟩
    cases hinst : action.is_install with
    | false =>
      rw [hinst] at h
      simp only [Bool.false_eq_true, if_false, except_bind_ok] at h
      refine ⟨[], fun _ => rfl, by simp, ?_⟩
      rw [List.append_nil]
      cases hfound : accT.find? (fun x => x.snd.id == action.id) with
      | some f =>
        rw [hfound] at h
        dsimp only at h
        cases hne : (f.snd.action != action.action) with
        | true => rw [hne] at h; simp at h
        | false =>
          rw [hne] at h
          simp only [Bool.false_eq_true, if_false, Except.ok.injEq] at h
          exact Or.inl h.symm
      | none =>
        rw [hfound] at h
        dsimp only at h
        simp only [Except.ok.injEq] at h
        exact Or.inr h.symm
    | true =>
      rw [hinst] at h
      simp only [if_true] at h
      cases hpia : process_install_actionT store package i action accT with
      | error e => rw [hpia] at h; simp [except_bind_error] at h
      | ok midT =>
        rw [hpia] at h
        simp only [except_bind_ok] at h
        rcases process_install_actionT_spec store package i action accT midT hpia
          with ⟨dependencies, extra, hdeps, hmid, hprops⟩
        refine ⟨extra, by simp, fun _ => ⟨dependencies, hdeps, hprops⟩, ?_⟩
        rw [← hmid]
        cases hfound : midT.find? (fun x => x.snd.id == action.id) with
        | some f =>
          rw [hfound] at h
          dsimp only at h
          cases hne : (f.snd.action != action.action) with
          | true => rw [hne] at h; simp at h
          | false =>
            rw [hne] at h
            simp only [Bool.false_eq_true, if_false, Except.ok.injEq] at h
            exact Or.inl h.symm
        | none =>
          rw [hfound] at h
          dsimp only at h
          simp only [Except.ok.injEq] at h
          exact Or.inr h.symm

lemma pairwise_tag_of_const (i : Nat) :
    ∀ (l : List Tag), (∀ t ∈ l, t = (i, false)) → l.Pairwise tag_before := by
  intro l
  induction l with
  | nil => intro; exact List.Pairwise.nil
  | cons a rest ih =>
    intro hall
    refine List.Pairwise.cons ?_ (ih (fun t ht => hall t (List.mem_cons_of_mem a ht)))
    intro t ht
    rw [hall a (List.mem_cons_self a rest), hall t (List.mem_cons_of_mem a ht)]
    exact Or.inr ⟨rfl, rfl⟩

/-- One successful instrumented iteration at index `pre.length` advances the
invariant by one. -/
lemma collate_actionT_step_inv (store : PackageStore)
    (acts pre rest : List PackageAction) (a : PackageAction)
    (hacts : acts = pre ++ a :: rest)
    (accT r : List (Tag × PackageAction))
    (h : collate_actionT store pre.length accT a = .ok r)
    (hinv : expandT_inv store acts pre.length accT) :
    expandT_inv store acts (pre.length + 1) r := by
  obtain ⟨hpair, hlt, hcaller, hdep⟩ := hinv
  have hlen : pre.length < acts.length := by
    subst hacts
    simp
  have hget : acts.get ⟨pre.length, hlen⟩ = a := by
    subst hacts
    rw [List.get_eq_getElem, List.getElem_append_right (Nat.le_refl _)]
    simp
  rcases collate_actionT_inv store pre.length accT a r h
    with ⟨package, hfind, extra, hnotinst, hinst, hr⟩
  have hex : ∀ y ∈ extra, y.fst = (pre.length, false) ∧ dep_entry store acts y := by
    intro y hy
    cases hai : a.is_install with
    | false =>
      rw [hnotinst hai] at hy
      exact absurd hy (List.not_mem_nil y)
    | true =>
      rcases hinst hai with ⟨dependencies, hdeps, hprops⟩
      obtain ⟨h1, h2, h3, h4⟩ := hprops y hy
      refine ⟨h1, ?_⟩
      obtain ⟨yt, ya⟩ := y
      simp only at h1
      subst h1
      refine ⟨hlen, ?_⟩
      rw [hget]
      exact ⟨hai, h2, h3, package, dependencies, hfind, hdeps, h4⟩
  have hmid_inv : expandT_inv store acts (pre.length + 1) (accT ++ extra) := by
    refine ⟨?_, ?_, ?_, ?_⟩
    · rw [List.map_append, List.pairwise_append]
      refine ⟨hpair, ?_, ?_⟩
      · refine pairwise_tag_of_const pre.length (extra.map Prod.fst) ?_
        intro t ht
        rcases List.mem_map.mp ht with ⟨y, hy, rfl⟩
        exact (hex y hy).1
      · intro t1 ht1 t2 ht2
        rcases List.mem_map.mp ht1 with ⟨x, hx, rfl⟩
        rcases List.mem_map.mp ht2 with ⟨y, hy, rfl⟩
        left
        rw [(hex y hy).1]
        exact hlt x hx
    · intro x hx
      rcases List.mem_append.mp hx with hx | hx
      · exact Nat.lt_succ_of_lt (hlt x hx)
      · rw [(hex x hx).1]
        exact Nat.lt_succ_self _
    · intro x hx hxs
      rcases List.mem_append.mp hx with hx | hx
      · exact hcaller x hx hxs
      · exfalso
        rw [(hex x hx).1] at hxs
        simp at hxs
    · intro x hx hxs
      rcases List.mem_append.mp hx with hx | hx
      · exact hdep x hx hxs
      · exact (hex x hx).2
  rcases hr with hr | hr
  · rw [hr]
    exact hmid_inv
  · rw [hr]
    obtain ⟨hp, hl, hc2, hd2⟩ := hmid_inv
    refine ⟨?_, ?_, ?_, ?_⟩
    · rw [List.map_append, List.pairwise_append]
      refine ⟨hp, by simp, ?_⟩
      intro t1 ht1 t2 ht2
      simp only [List.map_cons, List.map_nil, List.mem_singleton] at ht2
      subst ht2
      rcases List.mem_map.mp ht1 with ⟨x, hx, rfl⟩
      rcases List.mem_append.mp hx with hx | hx
      · left
        exact hlt x hx
      · rw [(hex x hx).1]
        exact Or.inr ⟨rfl, rfl⟩
    · intro x hx
      rcases List.mem_append.mp hx with hx | hx
      · exact hl x hx
      · simp only [List.mem_singleton] at hx
        subst hx
        exact Nat.lt_succ_self _
    · intro x hx hxs
      rcases List.mem_append.mp hx with hx | hx
      · exact hc2 x hx hxs
      · simp only [List.mem_singleton] at hx
        subst hx
        exact ⟨hlen, hget.symm⟩
    · intro x hx hxs
      rcases List.mem_append.mp hx with hx | hx
      · exact hd2 x hx hxs
      · simp only [List.mem_singleton] at hx
        subst hx
        simp at hxs

/-- The instrumented Step 1 loop establishes the provenance invariant. -/
lemma collateT_go_inv (store : PackageStore) (acts : List PackageAction) :
    ∀ (rest pre : List PackageAction) (accT lT : List (Tag × PackageAction)),
      acts = pre ++ rest →
      collateT_go store pre.length accT rest = .ok lT →
      expandT_inv store acts pre.length accT →
      expandT_inv store acts acts.length lT := by
  intro rest
  induction rest with
  | nil =>
    intro pre accT lT hacts h hinv
    simp only [collateT_go] at h
    injection h with h
    subst h
    have hpre : acts = pre := by simpa using hacts
    subst hpre
    exact hinv
  | cons a rest ih =>
    intro pre accT lT hacts h hinv
    simp only [collateT_go] at h
    cases hstep : collate_actionT store pre.length accT a with
    | error e => rw [hstep] at h; simp [except_bind_error] at h
    | ok accT' =>
      rw [hstep, except_bind_ok] at h
      have hinv' := collate_actionT_step_inv store acts pre rest a hacts
        accT accT' hstep hinv
      have hacts' : acts = (pre ++ [a]) ++ rest := by
        rw [hacts, List.append_assoc]
        rfl
      have hlen' : (pre ++ [a]).length = pre.length + 1 := by simp
      refine ih (pre ++ [a]) accT' lT hacts' ?_ ?_
      · rw [hlen']
        exact h
      · rw [hlen']
        exact hinv'

lemma map_snd_filter (l : List (Tag × PackageAction)) (p : PackageAction → Bool) :
    (l.filter (fun x => p x.snd)).map Prod.snd = (l.map Prod.snd).filter p := by
  induction l with
  | nil => rfl
  | cons a rest ih =>
    cases hp : p a.snd with
    | true => simp [List.filter_cons, hp, ih]
    | false => simp [List.filter_cons, hp, ih]

/-- C4: ordering of the produced plan.  Every successfully built plan admits
a provenance tagging `pT` (erasing to the plan): each entry is either the
caller action at its recorded input index (tag `(i, true)`) or an
auto-inserted dependency install of the caller `Install` action at its
recorded index (tag `(i, false)`), and the tag sequence is ordered by
`tag_before` — indices are non-decreasing along the plan and, within one
index, dependency entries strictly precede the caller entry.  Hence
surviving caller actions keep the caller's relative order, and every
surviving inserted dependency appears strictly before the caller `Install`
action whose dependency closure introduced it. -/
theorem plan_order_provenance (store : PackageStore) (acts : List PackageAction)
    (t : PackageTransaction) (h : PackageTransaction.new store acts = .ok t) :
    ∃ pT : List (Tag × PackageAction),
      pT.map Prod.snd = t.actions ∧
      (pT.map Prod.fst).Pairwise tag_before ∧
      (∀ x ∈ pT, x.fst.snd = true → caller_entry acts x) ∧
      (∀ x ∈ pT, x.fst.snd = false → dep_entry store acts x) := by
  rcases new_inv store acts t h with ⟨expanded, hc, _, hf, _⟩
  have herase := collateT_erase store acts
  cases hT : collateT store acts with
  | error e =>
    rw [hT, hc] at herase
    exact absurd herase (by simp [Except.map])
  | ok lT =>
    rw [hT, hc] at herase
    have hls : lT.map Prod.snd = expanded := by
      simpa [Except.map] using herase
    have hinv : expandT_inv store acts acts.length lT :=
      collateT_go_inv store acts acts [] [] lT rfl hT
        ⟨List.Pairwise.nil, by simp, by simp, by simp⟩
    obtain ⟨hpairT, _, hcallerT, hdepT⟩ := hinv
    rcases filter_necessary_ok store expanded t.actions hf with ⟨hout, _⟩
    refine ⟨lT.filter (fun x => survives store x.snd), ?_, ?_, ?_, ?_⟩
    · rw [map_snd_filter, hls, ← hout]
    · exact List.Pairwise.sublist
        (List.Sublist.map Prod.fst (List.filter_sublist lT)) hpairT
    · intro x hx hxs
      exact hcallerT x (List.mem_of_mem_filter hx) hxs
    · intro x hx hxs
      exact hdepT x (List.mem_of_mem_filter hx) hxs

/-- Witness for C4 at `dep_store` with the single caller action
`Install "a"`, whose plan is `[Install b, Install a]`. -/
theorem plan_order_provenance_witness :
    ∃ pT : List (Tag × PackageAction),
      pT.map Prod.snd = (PackageTransaction.mk dep_store
        [PackageAction.install "b" InstallTarget.user,
         PackageAction.install "a" InstallTarget.user]).actions ∧
      (pT.map Prod.fst).Pairwise tag_before ∧
      (∀ x ∈ pT, x.fst.snd = true →
        caller_entry [PackageAction.install "a" InstallTarget.user] x) ∧
      (∀ x ∈ pT, x.fst.snd = false →
        dep_entry dep_store [PackageAction.install "a" InstallTarget.user] x) :=
  plan_order_provenance dep_store [PackageAction.install "a" InstallTarget.user]
    (PackageTransaction.mk dep_store
      [PackageAction.install "b" InstallTarget.user,
       PackageAction.install "a" InstallTarget.user]) rfl

end Pahkat
